import Mathlib

/-!
Shallow embedding of the local-feature-matching pipeline in src/student.py
(Harris corner detection, SIFT-like descriptors, NNDR matching), together
with theorems settling the specification claims about it.

Conventions of the embedding:
* machine floats are modelled by exact rationals; the two genuinely
  irrational post-processing maps (square roots and the elementwise
  power 0.8 of the descriptor stage, and the square-rooted Euclidean
  distances of the matcher) are modelled over the reals;
* the Gaussian smoothing kernel (whose weights are irrational) is kept
  as an explicit parameter `g`, so theorems quantify over it;
* the smoothed gradient magnitude/orientation fields consumed by the
  descriptor stage are likewise explicit parameters `grad`, `theta`;
* fallible numpy/Python behaviour (IndexError, AttributeError from the
  array-typed clamp branches, ValueError from a reduction over an empty
  array) is modelled with `Except String`.
-/

namespace Student

/-- Truncation toward zero of a rational number, as Python `int(...)` and
numpy `astype(int)` do. -/
def ratTrunc (q : ℚ) : ℤ := Int.tdiv q.num q.den

/-- Python `range(0, n, 2)` for an integer upper bound `n` (empty when
`n ≤ 0`). -/
def strideRange2 (n : ℤ) : List ℕ := (List.range n.toNat).filter (fun k => k % 2 = 0)

/-- Sum of `f` over the square window with top-left corner `(y, x)` and side
`side` (the numpy slice `a[y:y+side, x:x+side]` summed). -/
def winSum (f : ℕ → ℕ → ℚ) (y x side : ℕ) : ℚ :=
  ((List.range side).map (fun i => ((List.range side).map (fun j => f (y + i) (x + j))).sum)).sum

/-- Harris response of the window of side `side` at `(y, x)`:
`det(M) - 0.03 * trace(M)^2` built from the summed moment maps of the
gradient fields `dx`, `dy` (student.py lines 67-72). -/
def harrisR (dx dy : ℕ → ℕ → ℚ) (y x side : ℕ) : ℚ :=
  let Sxx := winSum (fun a b => dx a b * dx a b) y x side
  let Syy := winSum (fun a b => dy a b * dy a b) y x side
  let Sxy := winSum (fun a b => dx a b * dy a b) y x side
  Sxx * Syy - Sxy * Sxy - (3 / 100) * ((Sxx + Syy) * (Sxx + Syy))

/-- The coordinate offset `int(feature_width / 2 - 1)` added to a window
corner before it is emitted (student.py lines 75-76); `int` truncates
toward zero and `feature_width / 2 - 1 = (feature_width - 2) / 2`. -/
def centerOffset (fw : ℕ) : ℤ := Int.tdiv ((fw : ℤ) - 2) 2

/-- The scan positions `(y, x)` visited by the nested stride-2 loops of
`get_interest_points` (student.py lines 65-66), in loop order. -/
def scanPositions (rows cols fw : ℕ) : List (ℕ × ℕ) :=
  (strideRange2 ((rows : ℤ) - (fw : ℤ))).flatMap
    (fun y => (strideRange2 ((cols : ℤ) - (fw : ℤ))).map (fun x => (y, x)))

/-- The scan stage of `get_interest_points` (student.py lines 65-77), as a
function of the smoothed gradient fields `dx`, `dy`: slide with stride 2,
sum the moment maps over the numpy slice `[y : y+feature_width+1]`
(side `feature_width + 1`), threshold the Harris response at 0.005, and
append the offset coordinates.  Returns the pair `(xs, ys)`. -/
def harrisScan (dx dy : ℕ → ℕ → ℚ) (rows cols fw : ℕ) : List ℤ × List ℤ :=
  let pts := (scanPositions rows cols fw).flatMap (fun p =>
    if (1 / 200 : ℚ) < harrisR dx dy p.1 p.2 (fw + 1) then
      [((p.2 : ℤ) + centerOffset fw, (p.1 : ℤ) + centerOffset fw)] else [])
  (pts.map Prod.fst, pts.map Prod.snd)

/-- The detector exactly as claim C1 words it: the moment sums range over a
square window of side `feature_width` (not `feature_width + 1`), and the
emitted coordinate is the corner offset by half the window,
`feature_width / 2`. -/
def claimIP (dx dy : ℕ → ℕ → ℚ) (rows cols fw : ℕ) : List ℤ × List ℤ :=
  let pts := (scanPositions rows cols fw).flatMap (fun p =>
    if (1 / 200 : ℚ) < harrisR dx dy p.1 p.2 fw then
      [((p.2 : ℤ) + ((fw / 2 : ℕ) : ℤ), (p.1 : ℤ) + ((fw / 2 : ℕ) : ℤ))] else [])
  (pts.map Prod.fst, pts.map Prod.snd)

section HarrisLemmas

/-- Appending a singleton under a condition is a filter followed by a map. -/
theorem flatMap_if_singleton {α β : Type} (l : List α) (p : α → Prop) [DecidablePred p]
    (f : α → β) :
    l.flatMap (fun a => if p a then [f a] else []) = (l.filter (fun a => decide (p a))).map f := by
  induction l with
  | nil => rfl
  | cons a t ih =>
    by_cases h : p a <;> simp [List.flatMap_cons, List.filter_cons, h, ih]

/-- Closed form of the scan stage: filter the scan positions by the
thresholded Harris response of the `(feature_width + 1)`-sided window, then
emit the offset coordinates. -/
theorem harrisScan_eq (dx dy : ℕ → ℕ → ℚ) (rows cols fw : ℕ) :
    harrisScan dx dy rows cols fw =
      (((scanPositions rows cols fw).filter
          (fun p => decide ((1 / 200 : ℚ) < harrisR dx dy p.1 p.2 (fw + 1)))).map
        (fun p => (p.2 : ℤ) + centerOffset fw),
       ((scanPositions rows cols fw).filter
          (fun p => decide ((1 / 200 : ℚ) < harrisR dx dy p.1 p.2 (fw + 1)))).map
        (fun p => (p.1 : ℤ) + centerOffset fw)) := by
  unfold harrisScan
  rw [flatMap_if_singleton (scanPositions rows cols fw)
    (fun p => (1 / 200 : ℚ) < harrisR dx dy p.1 p.2 (fw + 1))
    (fun p => ((p.2 : ℤ) + centerOffset fw, (p.1 : ℤ) + centerOffset fw))]
  simp [List.map_map, Function.comp]

/-- A window sum of a pointwise-zero field is zero. -/
theorem winSum_zero (f : ℕ → ℕ → ℚ) (h : ∀ a b, f a b = 0) (y x side : ℕ) :
    winSum f y x side = 0 := by
  unfold winSum
  apply List.sum_eq_zero
  intro q hq
  rcases List.mem_map.mp hq with ⟨i, _, rfl⟩
  apply List.sum_eq_zero
  intro r hr
  rcases List.mem_map.mp hr with ⟨j, _, rfl⟩
  exact h _ _

/-- The Harris response of identically-zero gradient fields is zero. -/
theorem harrisR_of_zero (dx dy : ℕ → ℕ → ℚ) (hdx : ∀ a b, dx a b = 0)
    (hdy : ∀ a b, dy a b = 0) (y x side : ℕ) :
    harrisR dx dy y x side = 0 := by
  unfold harrisR
  rw [winSum_zero _ (fun a b => by rw [hdx a b]; ring) y x side,
      winSum_zero _ (fun a b => by rw [hdy a b]; ring) y x side,
      winSum_zero _ (fun a b => by rw [hdx a b]; ring) y x side]
  ring

/-- If the (stride-reachable) Harris responses never exceed the threshold,
the scan emits nothing. -/
theorem harrisScan_none (dx dy : ℕ → ℕ → ℚ) (rows cols fw : ℕ)
    (h : ∀ y x, ¬ ((1 / 200 : ℚ) < harrisR dx dy y x (fw + 1))) :
    harrisScan dx dy rows cols fw = ([], []) := by
  rw [harrisScan_eq]
  have hf : (scanPositions rows cols fw).filter
      (fun p => decide ((1 / 200 : ℚ) < harrisR dx dy p.1 p.2 (fw + 1))) = [] := by
    apply List.filter_eq_nil_iff.mpr
    intro p _
    simpa using h p.1 p.2
  rw [hf]
  simp

/-- The scan positions vanish when the window does not fit. -/
theorem scanPositions_nil (rows cols fw : ℕ) (h : rows ≤ fw ∨ cols ≤ fw) :
    scanPositions rows cols fw = [] := by
  unfold scanPositions
  rcases h with h | h
  · have : ((rows : ℤ) - (fw : ℤ)).toNat = 0 := by omega
    simp [strideRange2, this]
  · have : ((cols : ℤ) - (fw : ℤ)).toNat = 0 := by omega
    apply List.flatMap_eq_nil_iff.mpr
    intro y _
    simp [strideRange2, this]

end HarrisLemmas

/-! ### The gradient front end of `get_interest_points`
(student.py lines 56-63): `cv2.Sobel(image, cv2.CV_8U, ...)` with a 5x5
kernel and reflect-101 borders, saturated into the uint8 range, then
`skimage.filters.gaussian` (which first rescales uint8 data by 1/255 and
then correlates with a Gaussian kernel, replicating edge pixels).  The
Gaussian weights are irrational, so the kernel is a parameter `g`. -/

/-- OpenCV `BORDER_REFLECT_101` index folding into `[0, n)`. -/
def reflect101 (n : ℕ) (i : ℤ) : ℕ :=
  if n ≤ 1 then 0 else
    let p : ℤ := 2 * (n : ℤ) - 2
    let m := i.emod p
    (if m < (n : ℤ) then m else p - m).toNat

/-- scipy `mode='nearest'` index clamping into `[0, n)`. -/
def clampIdx (n : ℕ) (i : ℤ) : ℕ := if i < 0 then 0 else min i.toNat (n - 1)

/-- The 5-tap smoothing factor of the OpenCV Sobel kernel. -/
def smooth5 : List ℤ := [1, 4, 6, 4, 1]

/-- The 5-tap derivative factor of the OpenCV Sobel kernel. -/
def deriv5 : List ℤ := [-1, -2, 0, 2, 1]

/-- The separable 5x5 Sobel kernel differentiating along x. -/
def sobelX5 : List (List ℤ) := smooth5.map (fun s => deriv5.map (fun d => s * d))

/-- The separable 5x5 Sobel kernel differentiating along y. -/
def sobelY5 : List (List ℤ) := deriv5.map (fun d => smooth5.map (fun s => d * s))

/-- Integer 5x5 correlation with reflect-101 border handling, the core of
`cv2.Sobel(image, cv2.CV_8U, ..., ksize=5)`. -/
def corrZ (K : List (List ℤ)) (img : ℕ → ℕ → ℤ) (H W : ℕ) (y x : ℕ) : ℤ :=
  ((List.range 5).map (fun u =>
    ((List.range 5).map (fun v =>
      (K.getD u []).getD v 0 *
        img (reflect101 H ((y : ℤ) + (u : ℤ) - 2)) (reflect101 W ((x : ℤ) + (v : ℤ) - 2)))).sum)).sum

/-- Saturation into the uint8 range, as `cv2.CV_8U` output depth does. -/
def saturate8 (z : ℤ) : ℤ := max 0 (min z 255)

/-- Rational correlation with an arbitrary (centred) kernel `g` and
nearest-neighbour border handling, modelling `skimage.filters.gaussian`. -/
def corrQ (g : List (List ℚ)) (img : ℕ → ℕ → ℚ) (H W : ℕ) (y x : ℕ) : ℚ :=
  ((List.range g.length).map (fun u =>
    ((List.range (g.headD []).length).map (fun v =>
      (g.getD u []).getD v 0 *
        img (clampIdx H ((y : ℤ) + (u : ℤ) - ((g.length - 1) / 2 : ℕ)))
            (clampIdx W ((x : ℤ) + (v : ℤ) - (((g.headD []).length - 1) / 2 : ℕ))))).sum)).sum

/-- One smoothed gradient channel of `get_interest_points`: Sobel filter
`K`, uint8 saturation, rescale by 1/255, Gaussian correlation with `g`
(student.py lines 56-59). -/
def smoothedGrad (K : List (List ℤ)) (g : List (List ℚ)) (img : ℕ → ℕ → ℤ) (H W : ℕ) :
    ℕ → ℕ → ℚ :=
  corrQ g (fun y x => ((saturate8 (corrZ K img H W y x) : ℚ)) / 255) H W

/-- `get_interest_points(image, feature_width)` (student.py lines 8-77),
parametrised by the Gaussian kernel `g` whose true weights are irrational. -/
def get_interest_points (g : List (List ℚ)) (img : ℕ → ℕ → ℤ) (rows cols fw : ℕ) :
    List ℤ × List ℤ :=
  harrisScan (smoothedGrad sobelX5 g img rows cols) (smoothedGrad sobelY5 g img rows cols)
    rows cols fw

/-! ### `get_features` (student.py lines 80-189)
The per-pixel gradient magnitude `sqrt(dx^2+dy^2)` and remapped
orientation `arctan2(dy, dx)` of the smoothed image are irrational, so the
embedding takes them as parameter fields `grad`, `theta`, and the
histogram range top `2*pi` as a parameter `hi`.  The windowing arithmetic
of lines 152-170 mixes the scalar point coordinate with the whole
coordinate arrays; the embedding reproduces it literally, including the
dynamic-typing failures of the two `.all()` clamp branches (they rebind
the bound tuples to `(array, int)`, so `int(rows[0])` / `rows[1].astype`
raise) and the use of the last entry `i2[-1]` / `j2[-1]` of the
array-valued upper bounds in the slice. -/

/-- numpy slice-endpoint normalisation into `[0, L]`: negative endpoints
count from the end of the axis and everything clamps into range. -/
def sliceIdx (L : ℕ) (a : ℤ) : ℕ :=
  if a < 0 then ((L : ℤ) + a).toNat else min a.toNat L

/-- `np.histogram` bin assignment for one value over 8 equal bins on
`[0, hi]`: values outside the range are dropped, the last bin is closed on
the right. -/
def binOf (hi v : ℚ) : Option ℕ :=
  if 0 ≤ v ∧ v ≤ hi then some (min (Int.toNat ⌊8 * v / hi⌋) 7) else none

/-- The window bounds computed by student.py lines 152-170 for the point
`(cx, cy)` given the whole coordinate arrays `xs`, `ys`: lower bounds are
scalars `c - (fw/2 - 1)` (shifted to 0 when negative), upper bounds are the
whole arrays `xs + fw/2` / `ys + fw/2`; when every upper bound reaches the
image extent the inward-shift branch rebinds the tuple to `(array, int)`
and the subsequent `int(...)` / `.astype(int)` calls fail (modelled as an
error); otherwise the slice uses the last entry of the upper-bound array.
Returns normalised numpy slice bounds `(rLo, rHi, cLo, cHi)`. -/
def windowBounds (H W fw : ℕ) (xs ys : List ℤ) (cx cy : ℤ) :
    Except String (ℕ × ℕ × ℕ × ℕ) :=
  let fw2 : ℚ := (fw : ℚ) / 2
  let r0 : ℚ := (cx : ℚ) - (fw2 - 1)
  let r1 : List ℚ := xs.map (fun (v : ℤ) => (v : ℚ) + fw2)
  let r0s : ℚ := if r0 < 0 then 0 else r0
  let r1s : List ℚ := if r0 < 0 then r1.map (fun v => v - r0) else r1
  if ∀ v ∈ r1s, (H : ℚ) ≤ v then
    Except.error "AttributeError: int object has no attribute astype (rows clamp)"
  else
    let c0 : ℚ := (cy : ℚ) - (fw2 - 1)
    let c1 : List ℚ := ys.map (fun (v : ℤ) => (v : ℚ) + fw2)
    let c0s : ℚ := if c0 < 0 then 0 else c0
    let c1s : List ℚ := if c0 < 0 then c1.map (fun v => v - c0) else c1
    if ∀ v ∈ c1s, (W : ℚ) ≤ v then
      Except.error "AttributeError: int object has no attribute astype (cols clamp)"
    else
      Except.ok (sliceIdx H (ratTrunc r0s), sliceIdx H (ratTrunc (r1s.getLastD 0) + 1),
        sliceIdx W (ratTrunc c0s), sliceIdx W (ratTrunc (c1s.getLastD 0) + 1))

/-- The 8-bin magnitude-weighted orientation histogram of descriptor cell
`(i, j)` (student.py lines 171-180): the cell slices rows
`[i*fw/4, (i+1)*fw/4)` and columns `[j*fw/4, (j+1)*fw/4)` of the window of
extent `h` by `w` at offset `(rLo, cLo)`, and bin `b` accumulates the
gradient magnitudes of the pixels whose orientation lands in bin `b`. -/
def cellHist (grad theta : ℕ → ℕ → ℚ) (hi : ℚ) (rLo cLo h w fw i j : ℕ) : List ℚ :=
  let ra := min (i * fw / 4) h
  let rb := min ((i + 1) * fw / 4) h
  let ca := min (j * fw / 4) w
  let cb := min ((j + 1) * fw / 4) w
  (List.range 8).map (fun b =>
    (((List.range (rb - ra)).flatMap (fun r => (List.range (cb - ca)).map (fun c =>
      (rLo + ra + r, cLo + ca + c)))).map (fun p =>
        if binOf hi (theta p.1 p.2) = some b then grad p.1 p.2 else 0)).sum)

/-- The raw 128-entry descriptor row of one interest point (student.py
lines 152-180): the windowing may fail (see `windowBounds`); when
`feature_width / 4 > 4` the write `features[m, i, j]` at grid index 4 is
an IndexError; cells beyond the `range(feature_width / 4)` loops keep
their preallocated zeros. -/
def rawRow (H W : ℕ) (grad theta : ℕ → ℕ → ℚ) (hi : ℚ) (xs ys : List ℤ) (fw : ℕ)
    (cx cy : ℤ) : Except String (List ℚ) :=
  (windowBounds H W fw xs ys cx cy).bind (fun b =>
    if 4 < fw / 4 then
      Except.error "IndexError: descriptor grid index out of bounds"
    else
      Except.ok ((List.range 4).flatMap (fun i => (List.range 4).flatMap (fun j =>
        if i < fw / 4 ∧ j < fw / 4 then
          cellHist grad theta hi b.1 b.2.2.1 (b.2.1 - b.1) (b.2.2.2 - b.2.2.1) fw i j
        else List.replicate 8 0))))

/-- Sequential effectful map: the first failing element aborts, as the
Python loop does. -/
def exceptMapList {α β : Type} (f : α → Except String β) : List α → Except String (List β)
  | [] => Except.ok []
  | a :: t =>
    match f a with
    | Except.error e => Except.error e
    | Except.ok b =>
      match exceptMapList f t with
      | Except.error e => Except.error e
      | Except.ok bs => Except.ok (b :: bs)

/-- All raw descriptor rows (student.py lines 141-181): the loop runs over
`zip(x, y)`; rows beyond the zip length keep the preallocated
`np.zeros` row. -/
def featuresRaw (H W : ℕ) (grad theta : ℕ → ℕ → ℚ) (hi : ℚ) (xs ys : List ℤ) (fw : ℕ) :
    Except String (List (List ℚ)) :=
  (exceptMapList (fun p => rawRow H W grad theta hi xs ys fw p.1 p.2)
      (List.zip xs ys)).bind (fun rows =>
    Except.ok (rows ++ List.replicate (xs.length - (List.zip xs ys).length)
      (List.replicate 128 0)))

/-- Sum of squares of a rational row. -/
def sumSq : List ℚ → ℚ
  | [] => 0
  | a :: t => a * a + sumSq t

/-- Sum of squares of a real row (the squared Euclidean norm). -/
def sumSqR : List ℝ → ℝ
  | [] => 0
  | a :: t => a * a + sumSqR t

/-- The per-row divisor: `np.linalg.norm(row)` with the zero guard
`dev[dev == 0] = 1` of student.py line 183. -/
noncomputable def rowDev (q : List ℚ) : ℝ :=
  if sumSq q = 0 then 1 else Real.sqrt (sumSq q)

/-- Row normalisation `features / dev` (student.py line 184). -/
noncomputable def normalizeRow (q : List ℚ) : List ℝ :=
  q.map (fun (v : ℚ) => (v : ℝ) / rowDev q)

/-- The clip-at-0.3 then raise-to-0.8 post-processing of one entry
(student.py lines 185-187). -/
noncomputable def clipPow (x : ℝ) : ℝ :=
  (if (3 : ℝ) / 10 ≤ x then (3 : ℝ) / 10 else x) ^ ((4 : ℝ) / 5)

/-- `get_features(image, x, y, feature_width)` (student.py lines 80-189):
raw histogram rows, per-row normalisation, clipping and the elementwise
power 0.8. -/
noncomputable def get_features (H W : ℕ) (grad theta : ℕ → ℕ → ℚ) (hi : ℚ)
    (xs ys : List ℤ) (fw : ℕ) : Except String (List (List ℝ)) :=
  Except.map (fun rows => rows.map (fun q => (normalizeRow q).map clipPow))
    (featuresRaw H W grad theta hi xs ys fw)

section DescriptorLemmas

theorem except_bind_ok {α β : Type} (a : α) (f : α → Except String β) :
    (Except.ok a).bind f = f a := rfl

theorem except_bind_error {α β : Type} (e : String) (f : α → Except String β) :
    (Except.error e).bind f = (Except.error e : Except String β) := rfl

theorem sumSq_nonneg (l : List ℚ) : 0 ≤ sumSq l := by
  induction l with
  | nil => simp [sumSq]
  | cons a t ih =>
    have := mul_self_nonneg a
    simp only [sumSq]
    linarith

theorem sumSq_eq_zero_mem (l : List ℚ) (h : sumSq l = 0) : ∀ v ∈ l, v = 0 := by
  induction l with
  | nil => intro v hv; cases hv
  | cons a t ih =>
    intro v hv
    have ha := mul_self_nonneg a
    have ht := sumSq_nonneg t
    simp only [sumSq] at h
    have ha0 : a * a = 0 := by linarith
    have ht0 : sumSq t = 0 := by linarith
    rcases List.mem_cons.mp hv with rfl | hv
    · exact mul_self_eq_zero.mp ha0
    · exact ih ht0 v hv

theorem sumSqR_map_div (q : List ℚ) (d : ℝ) :
    sumSqR (q.map (fun (v : ℚ) => (v : ℝ) / d)) = ((sumSq q : ℚ) : ℝ) / (d * d) := by
  induction q with
  | nil => simp [sumSqR, sumSq]
  | cons a t ih =>
    simp only [List.map_cons, sumSqR, sumSq, ih]
    push_cast
    rw [div_mul_div_comm, div_add_div_same]

theorem length_normalizeRow (q : List ℚ) : (normalizeRow q).length = q.length := by
  simp [normalizeRow]

/-- A nonzero raw row normalises to squared norm exactly 1. -/
theorem normalizeRow_sumSq (q : List ℚ) (h : sumSq q ≠ 0) : sumSqR (normalizeRow q) = 1 := by
  have h0 : 0 ≤ sumSq q := sumSq_nonneg q
  unfold normalizeRow rowDev
  rw [if_neg h, sumSqR_map_div, Real.mul_self_sqrt (by exact_mod_cast h0)]
  have hne : ((sumSq q : ℚ) : ℝ) ≠ 0 := by exact_mod_cast h
  field_simp

theorem clipPow_zero : clipPow 0 = 0 := by
  unfold clipPow
  rw [if_neg (by norm_num)]
  exact Real.zero_rpow (by norm_num)

/-- The clipped-and-powered value of a nonnegative entry lies in
`[0, 0.3 ^ 0.8]`. -/
theorem clipPow_mem (x : ℝ) (hx : 0 ≤ x) :
    0 ≤ clipPow x ∧ clipPow x ≤ ((3 : ℝ) / 10) ^ ((4 : ℝ) / 5) := by
  unfold clipPow
  by_cases h : (3 : ℝ) / 10 ≤ x
  · rw [if_pos h]
    exact ⟨Real.rpow_nonneg (by norm_num) _, le_refl _⟩
  · rw [if_neg h]
    push_neg at h
    exact ⟨Real.rpow_nonneg hx _,
      Real.rpow_le_rpow hx (le_of_lt h) (by norm_num)⟩

theorem rowDev_pos (q : List ℚ) : 0 < rowDev q := by
  unfold rowDev
  by_cases h : sumSq q = 0
  · rw [if_pos h]; norm_num
  · rw [if_neg h]
    have h0 : 0 < sumSq q := lt_of_le_of_ne (sumSq_nonneg q) (Ne.symm h)
    exact Real.sqrt_pos.mpr (by exact_mod_cast h0)

theorem cellHist_length (grad theta : ℕ → ℕ → ℚ) (hi : ℚ) (rLo cLo h w fw i j : ℕ) :
    (cellHist grad theta hi rLo cLo h w fw i j).length = 8 := by
  simp [cellHist]

theorem cellHist_nonneg (grad theta : ℕ → ℕ → ℚ) (hgrad : ∀ a b, 0 ≤ grad a b)
    (hi : ℚ) (rLo cLo h w fw i j : ℕ) :
    ∀ v ∈ cellHist grad theta hi rLo cLo h w fw i j, 0 ≤ v := by
  intro v hv
  simp only [cellHist] at hv
  rcases List.mem_map.mp hv with ⟨b, -, rfl⟩
  apply List.sum_nonneg
  intro x hx
  rcases List.mem_map.mp hx with ⟨p, -, rfl⟩
  by_cases hb : binOf hi (theta p.1 p.2) = some b
  · rw [if_pos hb]; exact hgrad _ _
  · rw [if_neg hb]

/-- Inversion of one raw descriptor row: its length is always 128. -/
theorem rawRow_length (H W : ℕ) (grad theta : ℕ → ℕ → ℚ) (hi : ℚ) (xs ys : List ℤ)
    (fw : ℕ) (cx cy : ℤ) (q : List ℚ)
    (hok : rawRow H W grad theta hi xs ys fw cx cy = Except.ok q) : q.length = 128 := by
  unfold rawRow at hok
  rcases hw : windowBounds H W fw xs ys cx cy with e | b
  · rw [hw, except_bind_error] at hok; simp at hok
  · rw [hw, except_bind_ok] at hok
    by_cases hfw : 4 < fw / 4
    · rw [if_pos hfw] at hok; simp at hok
    · rw [if_neg hfw] at hok
      simp only [Except.ok.injEq] at hok
      subst hok
      rw [show List.range 4 = [0, 1, 2, 3] from rfl]
      simp only [List.flatMap_cons, List.flatMap_nil, List.append_nil, List.length_append]
      have hlen : ∀ i j : ℕ, (if i < fw / 4 ∧ j < fw / 4 then
          cellHist grad theta hi b.1 b.2.2.1 (b.2.1 - b.1) (b.2.2.2 - b.2.2.1) fw i j
        else List.replicate 8 0).length = 8 := by
        intro i j
        by_cases hij : i < fw / 4 ∧ j < fw / 4
        · rw [if_pos hij]; exact cellHist_length _ _ _ _ _ _ _ _ _ _
        · rw [if_neg hij]; simp
      simp only [hlen]

/-- Every entry of a raw descriptor row is nonnegative when the gradient
magnitudes are. -/
theorem rawRow_nonneg (H W : ℕ) (grad theta : ℕ → ℕ → ℚ) (hi : ℚ) (xs ys : List ℤ)
    (fw : ℕ) (cx cy : ℤ) (q : List ℚ) (hgrad : ∀ a b, 0 ≤ grad a b)
    (hok : rawRow H W grad theta hi xs ys fw cx cy = Except.ok q) : ∀ v ∈ q, 0 ≤ v := by
  unfold rawRow at hok
  rcases hw : windowBounds H W fw xs ys cx cy with e | b
  · rw [hw, except_bind_error] at hok; simp at hok
  · rw [hw, except_bind_ok] at hok
    by_cases hfw : 4 < fw / 4
    · rw [if_pos hfw] at hok; simp at hok
    · rw [if_neg hfw] at hok
      simp only [Except.ok.injEq] at hok
      subst hok
      intro v hv
      rcases List.mem_flatMap.mp hv with ⟨i, -, hv⟩
      rcases List.mem_flatMap.mp hv with ⟨j, -, hv⟩
      by_cases hij : i < fw / 4 ∧ j < fw / 4
      · rw [if_pos hij] at hv
        exact cellHist_nonneg grad theta hgrad hi _ _ _ _ _ _ _ v hv
      · rw [if_neg hij] at hv
        rw [List.eq_of_mem_replicate hv]

/-- Inversion of the sequential effectful map. -/
theorem exceptMapList_ok {α β : Type} (f : α → Except String β) :
    ∀ (l : List α) (r : List β), exceptMapList f l = Except.ok r →
      r.length = l.length ∧ ∀ b ∈ r, ∃ a ∈ l, f a = Except.ok b := by
  intro l
  induction l with
  | nil =>
    intro r h
    simp only [exceptMapList, Except.ok.injEq] at h
    subst h
    exact ⟨rfl, by simp⟩
  | cons a t ih =>
    intro r h
    simp only [exceptMapList] at h
    rcases hfa : f a with e | b
    · rw [hfa] at h; simp at h
    · rw [hfa] at h
      rcases hrec : exceptMapList f t with e | bs
      · rw [hrec] at h; simp at h
      · rw [hrec] at h
        simp only [Except.ok.injEq] at h
        subst h
        obtain ⟨hlen, hmem⟩ := ih bs hrec
        refine ⟨by simp [hlen], ?_⟩
        intro b2 hb2
        rcases List.mem_cons.mp hb2 with rfl | hb2
        · exact ⟨a, List.mem_cons_self a t, hfa⟩
        · obtain ⟨a2, ha2, hfa2⟩ := hmem b2 hb2
          exact ⟨a2, List.mem_cons_of_mem a ha2, hfa2⟩

/-- Inversion of a successful `featuresRaw` run: one row of 128
(nonnegative, given nonnegative magnitudes) entries per input coordinate. -/
theorem featuresRaw_ok (H W : ℕ) (grad theta : ℕ → ℕ → ℚ) (hi : ℚ) (xs ys : List ℤ)
    (fw : ℕ) (Q : List (List ℚ))
    (hok : featuresRaw H W grad theta hi xs ys fw = Except.ok Q) :
    Q.length = xs.length ∧
    ∀ q ∈ Q, q.length = 128 ∧ ((∀ a b, 0 ≤ grad a b) → ∀ v ∈ q, 0 ≤ v) := by
  unfold featuresRaw at hok
  rcases hrec : exceptMapList (fun p => rawRow H W grad theta hi xs ys fw p.1 p.2)
      (List.zip xs ys) with e | rows
  · rw [hrec, except_bind_error] at hok; simp at hok
  · rw [hrec, except_bind_ok] at hok
    simp only [Except.ok.injEq] at hok
    subst hok
    obtain ⟨hlen, hmem⟩ := exceptMapList_ok _ _ _ hrec
    have hzip : (List.zip xs ys).length = min xs.length ys.length := List.length_zip xs ys
    constructor
    · simp only [List.length_append, List.length_replicate, hlen, hzip]
      omega
    · intro q hq
      rcases List.mem_append.mp hq with hq | hq
      · obtain ⟨p, -, hp⟩ := hmem q hq
        exact ⟨rawRow_length H W grad theta hi xs ys fw p.1 p.2 q hp,
          fun hgrad => rawRow_nonneg H W grad theta hi xs ys fw p.1 p.2 q hgrad hp⟩
      · rw [List.eq_of_mem_replicate hq]
        refine ⟨by simp, fun _ v hv => ?_⟩
        rw [List.eq_of_mem_replicate hv]

/-- Inversion of a successful `get_features` run. -/
theorem get_features_ok (H W : ℕ) (grad theta : ℕ → ℕ → ℚ) (hi : ℚ) (xs ys : List ℤ)
    (fw : ℕ) (F : List (List ℝ))
    (hok : get_features H W grad theta hi xs ys fw = Except.ok F) :
    ∃ Q, featuresRaw H W grad theta hi xs ys fw = Except.ok Q ∧
      F = Q.map (fun q => (normalizeRow q).map clipPow) := by
  unfold get_features at hok
  rcases hraw : featuresRaw H W grad theta hi xs ys fw with e | Q
  · rw [hraw] at hok; simp [Except.map] at hok
  · rw [hraw] at hok
    simp only [Except.map, Except.ok.injEq] at hok
    exact ⟨Q, rfl, hok.symm⟩

end DescriptorLemmas

end Student

open Student

/-- The gradient fields of the C1 counterexample: `dx` carries a unit spike
at `(2, 2)` (inside the slice of side `feature_width + 1` but outside the
claimed window of side `feature_width`). -/
def dxC1 : ℕ → ℕ → ℚ := fun i j => if i = 2 ∧ j = 2 then 1 else 0

/-- The gradient fields of the C1 counterexample: `dy` carries a unit spike
at `(0, 0)` (inside both windows). -/
def dyC1 : ℕ → ℕ → ℚ := fun i j => if i = 0 ∧ j = 0 then 1 else 0

/-- C1 (counterexample): on a 4x4 field with `feature_width = 2` the code
accepts scan position `(0, 0)` and emits coordinate `(0, 0)`, although the
Harris response of the claimed window of side `feature_width` at every scan
position is below the 0.005 threshold (so the claim's detector emits
nothing, and its claimed centre offset would have been 1, not 0). -/
theorem C1_counterexample :
    harrisScan dxC1 dyC1 4 4 2 = ([0], [0]) ∧ claimIP dxC1 dyC1 4 4 2 = ([], []) := by
  have h1 : scanPositions 4 4 2 = [(0, 0)] := rfl
  have hr3 : List.range 3 = [0, 1, 2] := rfl
  have hr2 : List.range 2 = [0, 1] := rfl
  have hRcode : harrisR dxC1 dyC1 0 0 3 = 22 / 25 := by
    norm_num [harrisR, winSum, hr3, dxC1, dyC1]
  have hRclaim : harrisR dxC1 dyC1 0 0 2 = -3 / 100 := by
    norm_num [harrisR, winSum, hr2, dxC1, dyC1]
  have hoff : centerOffset 2 = 0 := rfl
  constructor
  · rw [harrisScan_eq, h1]
    norm_num [hRcode, hoff]
  · unfold claimIP
    rw [h1]
    norm_num [hRclaim]

/-- C1 (amended): `get_interest_points` accepts a scan position iff the
Harris response `det(M) - 0.03 * trace(M)^2` of the moment sums over the
square window of side `feature_width + 1` (not `feature_width`) strictly
exceeds 0.005, and the emitted coordinate is the window corner offset by
`int(feature_width / 2 - 1)` (not by half the window). -/
theorem C1_amended (dx dy : ℕ → ℕ → ℚ) (rows cols fw : ℕ) :
    harrisScan dx dy rows cols fw =
      (((scanPositions rows cols fw).filter
          (fun p => decide ((1 / 200 : ℚ) < harrisR dx dy p.1 p.2 (fw + 1)))).map
        (fun p => (p.2 : ℤ) + centerOffset fw),
       ((scanPositions rows cols fw).filter
          (fun p => decide ((1 / 200 : ℚ) < harrisR dx dy p.1 p.2 (fw + 1)))).map
        (fun p => (p.1 : ℤ) + centerOffset fw)) :=
  harrisScan_eq dx dy rows cols fw

/-- C7: `get_interest_points` returns two integer coordinate lists of equal
length on every input, and whenever `feature_width` reaches the image
height or width the scan range is empty and both lists are empty. -/
theorem C7_shape (g : List (List ℚ)) (img : ℕ → ℕ → ℤ) (rows cols fw : ℕ) :
    (get_interest_points g img rows cols fw).1.length =
      (get_interest_points g img rows cols fw).2.length ∧
    (rows ≤ fw ∨ cols ≤ fw → get_interest_points g img rows cols fw = ([], [])) := by
  constructor
  · unfold get_interest_points harrisScan
    simp
  · intro h
    unfold get_interest_points harrisScan
    rw [scanPositions_nil rows cols fw h]
    simp

/-- C7 (witness): at a 3x4 image with `feature_width = 6` both returned
lists are empty. -/
theorem C7_witness : get_interest_points [[1]] (fun _ _ => 5) 3 4 6 = ([], []) :=
  (C7_shape [[1]] (fun _ _ => 5) 3 4 6).2 (Or.inl (by decide))

namespace Student

/-- Total weight of the 5x5 kernel window read by `corrZ`. -/
def kernelSum5 (K : List (List ℤ)) : ℤ :=
  ((List.range 5).map (fun u => ((List.range 5).map (fun v => (K.getD u []).getD v 0)).sum)).sum

/-- Correlating a constant image multiplies the constant by the total
kernel weight, whatever the border handling does. -/
theorem corrZ_const (K : List (List ℤ)) (c : ℤ) (H W y x : ℕ) :
    corrZ K (fun _ _ => c) H W y x = kernelSum5 K * c := by
  have hr5 : List.range 5 = [0, 1, 2, 3, 4] := rfl
  simp only [corrZ, kernelSum5, hr5, List.map_cons, List.map_nil, List.sum_cons, List.sum_nil]
  ring

/-- Both Sobel kernels have total weight zero. -/
theorem kernelSum5_sobel : kernelSum5 sobelX5 = 0 ∧ kernelSum5 sobelY5 = 0 := by
  constructor <;> rfl

/-- Correlating a pointwise-zero image with any kernel gives zero. -/
theorem corrQ_zero (g : List (List ℚ)) (img : ℕ → ℕ → ℚ) (h : ∀ a b, img a b = 0)
    (H W y x : ℕ) : corrQ g img H W y x = 0 := by
  unfold corrQ
  apply List.sum_eq_zero
  intro q hq
  rcases List.mem_map.mp hq with ⟨u, _, rfl⟩
  apply List.sum_eq_zero
  intro r hr
  rcases List.mem_map.mp hr with ⟨v, _, rfl⟩
  rw [h]
  ring

/-- On a constant image the smoothed Sobel-x gradient channel vanishes. -/
theorem smoothedGrad_constX (g : List (List ℚ)) (c : ℤ) (H W a b : ℕ) :
    smoothedGrad sobelX5 g (fun _ _ => c) H W a b = 0 := by
  unfold smoothedGrad
  apply corrQ_zero
  intro a b
  rw [corrZ_const, kernelSum5_sobel.1]
  norm_num [saturate8]

/-- On a constant image the smoothed Sobel-y gradient channel vanishes. -/
theorem smoothedGrad_constY (g : List (List ℚ)) (c : ℤ) (H W a b : ℕ) :
    smoothedGrad sobelY5 g (fun _ _ => c) H W a b = 0 := by
  unfold smoothedGrad
  apply corrQ_zero
  intro a b
  rw [corrZ_const, kernelSum5_sobel.2]
  norm_num [saturate8]

end Student

namespace Student

/-! ### `match_features` (student.py lines 192-246)
Distances are Euclidean (`np.sqrt` of a sum of squares); the embedding
keeps the squared distances rational and takes real square roots only in
the recorded confidences.  The ratio test `d1 < 0.8 * d2` on the
(nonnegative) distances is carried out on the squares as
`25 * q1 < 16 * q2`, which is equivalent (see `ratio_bridge`). -/

/-- Squared Euclidean distance between two equal-length descriptor rows
(`((a - b) ** 2).sum()`, student.py line 233, before the square root). -/
def sqdist (u v : List ℚ) : ℚ :=
  ((List.zip u v).map (fun p => (p.1 - p.2) * (p.1 - p.2))).sum

/-- The squared distance array from row `u` to every row of `f2`. -/
def dists (f2 : List (List ℚ)) (u : List ℚ) : List ℚ := f2.map (fun v => sqdist u v)

/-- Minimum of a list (0 for the empty list, which the code never takes). -/
def listMin : List ℚ → ℚ
  | [] => 0
  | a :: t => t.foldl min a

/-- First index attaining the minimum: the entry `argsort(distance)[0]`
(ties cannot be accepted by the strict ratio test, so which tied index
`np.argsort` reports is immaterial to the returned matches). -/
def idxMin (l : List ℚ) : ℕ := l.findIdx (fun v => decide (v ≤ listMin l))

/-- Second-smallest value counted with multiplicity: the value at
`argsort(distance)[1]`. -/
def sndMin (l : List ℚ) : ℚ := listMin (l.eraseIdx (idxMin l))

/-- The ratio test of student.py line 239 on squared distances:
`25 * d1^2 < 16 * d2^2` iff `d1 < 0.8 * d2` for nonnegative distances. -/
def acceptRow (f2 : List (List ℚ)) (u : List ℚ) : Bool :=
  decide (25 * listMin (dists f2 u) < 16 * sndMin (dists f2 u))

/-- The row indices of `im1_features` accepted by the ratio test, in loop
order (student.py lines 231-241). -/
def acceptedIdxs (f1 f2 : List (List ℚ)) : List ℕ :=
  (List.range f1.length).filter (fun i => acceptRow f2 (f1.getD i []))

/-- The recorded confidence `1 - d1 / d2` (student.py line 241), on the
real square roots of the squared distances. -/
noncomputable def nndrConf (q1 q2 : ℚ) : ℝ := 1 - Real.sqrt q1 / Real.sqrt q2

/-- `match_features(im1_features, im2_features)` (student.py lines 192-246).
A first-image row list and a second-image row list go to the match pairs
and confidences, or to an error: an `IndexError` when the loop body reads
`sorted_distances[1]` with fewer than two second-image rows, and the
`ValueError` of `np.min` over the empty valid-confidence array when no row
passes the ratio test (line 244 evaluates it unconditionally). -/
noncomputable def match_features (f1 f2 : List (List ℚ)) :
    Except String (List (ℕ × ℕ) × List ℝ) :=
  if f1.length ≠ 0 ∧ f2.length < 2 then
    Except.error "IndexError: index 1 is out of bounds"
  else if (acceptedIdxs f1 f2).isEmpty then
    Except.error "ValueError: zero-size array to reduction operation minimum"
  else
    Except.ok ((acceptedIdxs f1 f2).map (fun i => (i, idxMin (dists f2 (f1.getD i [])))),
      (acceptedIdxs f1 f2).map (fun i =>
        nndrConf (listMin (dists f2 (f1.getD i []))) (sndMin (dists f2 (f1.getD i [])))))

/-- Euclidean distance `d1` from `u` to its nearest row of `f2`. -/
noncomputable def d1R (f2 : List (List ℚ)) (u : List ℚ) : ℝ :=
  Real.sqrt (listMin (dists f2 u))

/-- Euclidean distance `d2` from `u` to its second-nearest row of `f2`. -/
noncomputable def d2R (f2 : List (List ℚ)) (u : List ℚ) : ℝ :=
  Real.sqrt (sndMin (dists f2 u))

section MatchLemmas

theorem foldlMin_le_init (t : List ℚ) : ∀ a : ℚ, t.foldl min a ≤ a := by
  induction t with
  | nil => intro a; simp
  | cons b t ih =>
    intro a
    rw [List.foldl_cons]
    exact le_trans (ih (min a b)) (min_le_left a b)

theorem foldlMin_le_mem (t : List ℚ) : ∀ a x, x ∈ t → t.foldl min a ≤ x := by
  induction t with
  | nil => intro a x hx; cases hx
  | cons b t ih =>
    intro a x hx
    rw [List.foldl_cons]
    rcases List.mem_cons.mp hx with rfl | hx
    · exact le_trans (foldlMin_le_init t (min a x)) (min_le_right a x)
    · exact ih (min a b) x hx

/-- The list minimum bounds every member from below. -/
theorem listMin_le (l : List ℚ) (x : ℚ) (hx : x ∈ l) : listMin l ≤ x := by
  cases l with
  | nil => cases hx
  | cons a t =>
    rcases List.mem_cons.mp hx with rfl | hx
    · exact foldlMin_le_init t x
    · exact foldlMin_le_mem t a x hx

theorem foldlMin_mem (t : List ℚ) : ∀ a : ℚ, t.foldl min a ∈ a :: t := by
  induction t with
  | nil => intro a; simp
  | cons b t ih =>
    intro a
    rw [List.foldl_cons]
    rcases min_choice a b with h | h <;> rcases List.mem_cons.mp (ih (min a b)) with hm | hm
    · exact List.mem_cons.mpr (Or.inl (by rw [hm, h]))
    · exact List.mem_cons.mpr (Or.inr (List.mem_cons.mpr (Or.inr hm)))
    · exact List.mem_cons.mpr (Or.inr (List.mem_cons.mpr (Or.inl (by rw [hm, h]))))
    · exact List.mem_cons.mpr (Or.inr (List.mem_cons.mpr (Or.inr hm)))

/-- The list minimum of a nonempty list is one of its members. -/
theorem listMin_mem (l : List ℚ) (h : l ≠ []) : listMin l ∈ l := by
  cases l with
  | nil => exact absurd rfl h
  | cons a t => exact foldlMin_mem t a

theorem listMin_nonneg (l : List ℚ) (h : l ≠ []) (h0 : ∀ x ∈ l, 0 ≤ x) : 0 ≤ listMin l :=
  h0 _ (listMin_mem l h)

theorem idxMin_lt_length (l : List ℚ) (h : l ≠ []) : idxMin l < l.length := by
  apply List.findIdx_lt_length_of_exists
  exact ⟨listMin l, listMin_mem l h, by simp⟩

/-- The entry at the arg-min index is the minimum. -/
theorem idxMin_getD (l : List ℚ) (h : l ≠ []) : l.getD (idxMin l) 0 = listMin l := by
  have hlt := idxMin_lt_length l h
  have hp := @List.findIdx_getElem ℚ (fun v => decide (v ≤ listMin l)) l hlt
  rw [List.getD_eq_getElem l 0 hlt]
  have hle : l[idxMin l] ≤ listMin l := by simpa using hp
  exact le_antisymm hle (listMin_le l _ (l.getElem_mem hlt))

theorem sqdist_nonneg (u v : List ℚ) : 0 ≤ sqdist u v := by
  apply List.sum_nonneg
  intro x hx
  rcases List.mem_map.mp hx with ⟨p, _, rfl⟩
  exact mul_self_nonneg _

theorem dists_nonneg (f2 : List (List ℚ)) (u : List ℚ) : ∀ x ∈ dists f2 u, 0 ≤ x := by
  intro x hx
  rcases List.mem_map.mp hx with ⟨v, _, rfl⟩
  exact sqdist_nonneg u v

theorem sndMin_nonneg (l : List ℚ) (h2 : 2 ≤ l.length) (h0 : ∀ x ∈ l, 0 ≤ x) :
    0 ≤ sndMin l := by
  have hne : l ≠ [] := by
    intro hl; rw [hl] at h2; simp at h2
  have hlt := idxMin_lt_length l hne
  have hlen : (l.eraseIdx (idxMin l)).length = l.length - 1 := List.length_eraseIdx_of_lt hlt
  have hne2 : l.eraseIdx (idxMin l) ≠ [] := by
    apply List.ne_nil_of_length_pos
    omega
  exact listMin_nonneg _ hne2 (fun x hx => h0 x (List.eraseIdx_subset l (idxMin l) hx))

/-- `d1 < 0.8 * d2` on Euclidean distances iff `25 * d1^2 < 16 * d2^2` on
the squared distances, for nonnegative squares. -/
theorem ratio_bridge (q1 q2 : ℚ) (hq1 : 0 ≤ q1) :
    (25 * q1 < 16 * q2) ↔ Real.sqrt q1 < (4 / 5) * Real.sqrt q2 := by
  have h45 : ((4 : ℝ) / 5) * Real.sqrt q2 = Real.sqrt ((16 / 25) * q2) := by
    rw [Real.sqrt_mul (by norm_num : (0 : ℝ) ≤ 16 / 25)]
    rw [show Real.sqrt ((16 : ℝ) / 25) = 4 / 5 by
      rw [show ((16 : ℝ) / 25) = (4 / 5) ^ 2 by norm_num]
      exact Real.sqrt_sq (by norm_num)]
  rw [h45, Real.sqrt_lt_sqrt_iff (by exact_mod_cast hq1)]
  constructor
  · intro h
    have hR : (25 : ℝ) * (q1 : ℝ) < 16 * (q2 : ℝ) := by exact_mod_cast h
    linarith
  · intro h
    have hR : (25 : ℝ) * (q1 : ℝ) < 16 * (q2 : ℝ) := by linarith
    exact_mod_cast hR

end MatchLemmas

section MatchExtraction

/-- Inversion of a successful `match_features` run. -/
theorem match_features_ok (f1 f2 : List (List ℚ)) (ms : List (ℕ × ℕ)) (cs : List ℝ)
    (hok : match_features f1 f2 = Except.ok (ms, cs)) :
    ms = (acceptedIdxs f1 f2).map (fun i => (i, idxMin (dists f2 (f1.getD i [])))) ∧
    cs = (acceptedIdxs f1 f2).map (fun i =>
        nndrConf (listMin (dists f2 (f1.getD i []))) (sndMin (dists f2 (f1.getD i [])))) ∧
    acceptedIdxs f1 f2 ≠ [] ∧ ¬(f1.length ≠ 0 ∧ f2.length < 2) := by
  unfold match_features at hok
  by_cases h1 : f1.length ≠ 0 ∧ f2.length < 2
  · rw [if_pos h1] at hok; simp at hok
  · rw [if_neg h1] at hok
    by_cases h2 : (acceptedIdxs f1 f2).isEmpty
    · rw [if_pos h2] at hok; simp at hok
    · rw [if_neg h2] at hok
      simp only [Except.ok.injEq, Prod.mk.injEq] at hok
      refine ⟨hok.1.symm, hok.2.symm, ?_, h1⟩
      intro hnil
      rw [hnil] at h2
      simp at h2

/-- A successful run needs at least two second-image rows. -/
theorem match_features_ok_two (f1 f2 : List (List ℚ)) (ms : List (ℕ × ℕ)) (cs : List ℝ)
    (hok : match_features f1 f2 = Except.ok (ms, cs)) : 2 ≤ f2.length := by
  obtain ⟨-, -, hne, hcond⟩ := match_features_ok f1 f2 ms cs hok
  obtain ⟨i, hi⟩ := List.exists_mem_of_ne_nil _ hne
  have hlt : i < f1.length := by
    have := (List.mem_filter.mp hi).1
    simpa using this
  omega

end MatchExtraction

end Student

/-- C9: on a 20x20 constant-intensity image with `feature_width = 8` the
detector returns two empty arrays, for every Gaussian kernel `g` and every
constant `c`: the gradients vanish everywhere, so no Harris response
exceeds the 0.005 threshold. -/
theorem C9_flat_image (g : List (List ℚ)) (c : ℤ) :
    get_interest_points g (fun _ _ => c) 20 20 8 = ([], []) := by
  unfold get_interest_points
  apply harrisScan_none
  intro y x
  rw [harrisR_of_zero _ _ (smoothedGrad_constX g c 20 20) (smoothedGrad_constY g c 20 20)]
  norm_num

/-- C2 (amended): whenever `get_features` returns, it returns one row per
input coordinate, each of 128 entries; each raw histogram row normalises
to squared Euclidean norm exactly 1 unless it is all-zero, in which case
it stays all-zero; and the returned rows are the clipped-and-powered
images of the normalised rows (so the returned rows themselves need not
have unit norm). -/
theorem C2_descriptor_rows (H W : ℕ) (grad theta : ℕ → ℕ → ℚ) (hi : ℚ)
    (xs ys : List ℤ) (fw : ℕ) (F : List (List ℝ))
    (hok : get_features H W grad theta hi xs ys fw = Except.ok F) :
    F.length = xs.length ∧ (∀ r ∈ F, r.length = 128) ∧
    ∃ Q, featuresRaw H W grad theta hi xs ys fw = Except.ok Q ∧
      F = Q.map (fun q => (normalizeRow q).map clipPow) ∧
      ∀ q ∈ Q, sumSqR (normalizeRow q) = 1 ∨
        (normalizeRow q = List.replicate 128 0 ∧
         (normalizeRow q).map clipPow = List.replicate 128 0) := by
  obtain ⟨Q, hraw, hF⟩ := get_features_ok H W grad theta hi xs ys fw F hok
  obtain ⟨hQlen, hQ⟩ := featuresRaw_ok H W grad theta hi xs ys fw Q hraw
  subst hF
  refine ⟨by simp [hQlen], ?_, Q, hraw, rfl, ?_⟩
  · intro r hr
    rcases List.mem_map.mp hr with ⟨q, hq, rfl⟩
    simp [length_normalizeRow, (hQ q hq).1]
  · intro q hq
    by_cases hz : sumSq q = 0
    · right
      have hqlen := (hQ q hq).1
      have hmem : ∀ v ∈ normalizeRow q, v = 0 := by
        intro v hv
        rcases List.mem_map.mp hv with ⟨u, hu, rfl⟩
        rw [sumSq_eq_zero_mem q hz u hu]
        simp
      have h1 : normalizeRow q = List.replicate 128 0 := by
        apply List.eq_replicate_iff.mpr
        exact ⟨by rw [length_normalizeRow, hqlen], hmem⟩
      have h2 : (normalizeRow q).map clipPow = List.replicate 128 0 := by
        rw [h1, List.map_replicate, clipPow_zero]
      exact ⟨h1, h2⟩
    · left
      exact normalizeRow_sumSq q hz

/-- C10: every entry of a successfully returned descriptor matrix lies in
`[0, 0.3 ^ 0.8]`, provided the gradient-magnitude field is nonnegative
(as a Euclidean norm always is): raw entries are nonnegative, rows are
divided by a positive norm, clipped at 0.3 and raised to the 0.8. -/
theorem C10_entry_range (H W : ℕ) (grad theta : ℕ → ℕ → ℚ) (hi : ℚ) (xs ys : List ℤ)
    (fw : ℕ) (F : List (List ℝ)) (hgrad : ∀ a b, 0 ≤ grad a b)
    (hok : get_features H W grad theta hi xs ys fw = Except.ok F) :
    ∀ r ∈ F, ∀ v ∈ r, 0 ≤ v ∧ v ≤ ((3 : ℝ) / 10) ^ ((4 : ℝ) / 5) := by
  obtain ⟨Q, hraw, hF⟩ := get_features_ok H W grad theta hi xs ys fw F hok
  obtain ⟨-, hQ⟩ := featuresRaw_ok H W grad theta hi xs ys fw Q hraw
  subst hF
  intro r hr v hv
  rcases List.mem_map.mp hr with ⟨q, hq, rfl⟩
  rcases List.mem_map.mp hv with ⟨w, hw, rfl⟩
  rcases List.mem_map.mp hw with ⟨u, hu, rfl⟩
  have hu0 : (0 : ℚ) ≤ u := (hQ q hq).2 hgrad u hu
  have hw0 : (0 : ℝ) ≤ (u : ℝ) / rowDev q :=
    div_nonneg (by exact_mod_cast hu0) (le_of_lt (rowDev_pos q))
  exact clipPow_mem _ hw0

namespace Student

/-- Gradient-magnitude field of the concrete descriptor example: a unit
spike at pixel `(7, 7)` of a 30x30 image. -/
def gradEx : ℕ → ℕ → ℚ := fun i j => if i = 7 ∧ j = 7 then 1 else 0

/-- Orientation field of the concrete descriptor example: 0 everywhere. -/
def thetaEx : ℕ → ℕ → ℚ := fun _ _ => 0

/-- The raw descriptor row of the example: weight 1 in bin 0 of cell
`(0, 0)`, zero elsewhere. -/
def rawRowVal : List ℚ := 1 :: List.replicate 127 0

theorem windowBounds_ex : windowBounds 30 30 8 [10] [10] 10 10 = Except.ok (7, 15, 7, 15) := by
  unfold windowBounds
  norm_num [ratTrunc, sliceIdx]
  omega

theorem binOf_zero_ex : binOf 7 0 = some 0 := by
  unfold binOf
  rw [if_pos (by norm_num)]
  norm_num

theorem cellHist_ex_00 : cellHist gradEx thetaEx 7 7 7 8 8 8 0 0 = 1 :: List.replicate 7 0 := by
  unfold cellHist
  norm_num [gradEx, thetaEx, binOf_zero_ex]
  rw [show List.range 8 = [0, 1, 2, 3, 4, 5, 6, 7] from rfl,
    show List.range 2 = [0, 1] from rfl]
  norm_num [List.flatMap_cons, List.map_append]
  rfl

theorem cellHist_ex_01 : cellHist gradEx thetaEx 7 7 7 8 8 8 0 1 = List.replicate 8 0 := by
  unfold cellHist
  norm_num [gradEx, thetaEx, binOf_zero_ex]
  rw [show List.range 8 = [0, 1, 2, 3, 4, 5, 6, 7] from rfl,
    show List.range 2 = [0, 1] from rfl]
  norm_num [List.flatMap_cons, List.map_append]
  rfl

theorem cellHist_ex_10 : cellHist gradEx thetaEx 7 7 7 8 8 8 1 0 = List.replicate 8 0 := by
  unfold cellHist
  norm_num [gradEx, thetaEx, binOf_zero_ex]
  rw [show List.range 8 = [0, 1, 2, 3, 4, 5, 6, 7] from rfl,
    show List.range 2 = [0, 1] from rfl]
  norm_num [List.flatMap_cons, List.map_append]
  rfl

theorem cellHist_ex_11 : cellHist gradEx thetaEx 7 7 7 8 8 8 1 1 = List.replicate 8 0 := by
  unfold cellHist
  norm_num [gradEx, thetaEx, binOf_zero_ex]
  rw [show List.range 8 = [0, 1, 2, 3, 4, 5, 6, 7] from rfl,
    show List.range 2 = [0, 1] from rfl]
  norm_num [List.flatMap_cons, List.map_append]
  rfl

theorem rawRow_ex : rawRow 30 30 gradEx thetaEx 7 [10] [10] 8 10 10 = Except.ok rawRowVal := by
  unfold rawRow
  rw [windowBounds_ex, except_bind_ok]
  rw [if_neg (by norm_num)]
  rw [show List.range 4 = [0, 1, 2, 3] from rfl]
  simp only [List.flatMap_cons, List.flatMap_nil, List.append_nil]
  norm_num [cellHist_ex_00, cellHist_ex_01, cellHist_ex_10, cellHist_ex_11]
  rfl

theorem exceptMapList_singleton {α β : Type} (f : α → Except String β) (a : α) (b : β)
    (h : f a = Except.ok b) : exceptMapList f [a] = Except.ok [b] := by
  simp only [exceptMapList, h]

theorem featuresRaw_ex : featuresRaw 30 30 gradEx thetaEx 7 [10] [10] 8 =
    Except.ok [rawRowVal] := by
  unfold featuresRaw
  rw [show List.zip [(10 : ℤ)] [(10 : ℤ)] = [((10 : ℤ), (10 : ℤ))] from rfl]
  have hl : exceptMapList (fun (p : ℤ × ℤ) => rawRow 30 30 gradEx thetaEx 7 [10] [10] 8 p.1 p.2)
      [((10 : ℤ), (10 : ℤ))] = Except.ok [rawRowVal] := by
    simp only [exceptMapList]
    rw [rawRow_ex]
  rw [hl, except_bind_ok]
  rfl

/-- The returned descriptor row of the example: the single nonzero raw
entry normalises to 1, is clipped to 0.3, and is raised to the 0.8. -/
noncomputable def fRowEx : List ℝ := (normalizeRow rawRowVal).map clipPow

theorem get_features_ex : get_features 30 30 gradEx thetaEx 7 [10] [10] 8 =
    Except.ok [fRowEx] := by
  unfold get_features
  rw [featuresRaw_ex]
  rfl

theorem sumSq_replicate_zero (n : ℕ) : sumSq (List.replicate n 0) = 0 := by
  induction n with
  | zero => rfl
  | succ n ih => simp [List.replicate_succ, sumSq, ih]

theorem sumSqR_replicate_zero (n : ℕ) : sumSqR (List.replicate n 0) = 0 := by
  induction n with
  | zero => rfl
  | succ n ih => simp [List.replicate_succ, sumSqR, ih]

theorem sumSq_rawRowVal : sumSq rawRowVal = 1 := by
  simp [rawRowVal, sumSq, sumSq_replicate_zero]

theorem normalizeRow_ex : normalizeRow rawRowVal = (1 : ℝ) :: List.replicate 127 0 := by
  unfold normalizeRow rowDev
  rw [sumSq_rawRowVal]
  rw [if_neg (by norm_num), Rat.cast_one, Real.sqrt_one]
  simp [rawRowVal, List.map_replicate]

theorem clipPow_one : clipPow 1 = ((3 : ℝ) / 10) ^ ((4 : ℝ) / 5) := by
  unfold clipPow
  rw [if_pos (by norm_num)]

theorem fRowEx_eq : fRowEx = ((3 : ℝ) / 10) ^ ((4 : ℝ) / 5) :: List.replicate 127 0 := by
  unfold fRowEx
  rw [normalizeRow_ex]
  simp only [List.map_cons, List.map_replicate, clipPow_one, clipPow_zero]

end Student

/-- C2 (counterexample): a concrete successful `get_features` run whose
returned row is not all-zero yet has squared Euclidean norm below 0.9
(its only nonzero entry is `0.3 ^ 0.8`), because the clip-and-power
post-processing runs after the normalisation; so the returned rows do not
have unit norm. -/
theorem C2_counterexample :
    ∃ F, get_features 30 30 gradEx thetaEx 7 [10] [10] 8 = Except.ok F ∧
      ∃ r ∈ F, (∃ v ∈ r, v ≠ 0) ∧ sumSqR r < 9 / 10 := by
  refine ⟨[fRowEx], get_features_ex, fRowEx, List.mem_singleton.mpr rfl, ?_, ?_⟩
  · refine ⟨((3 : ℝ) / 10) ^ ((4 : ℝ) / 5), ?_, ?_⟩
    · rw [fRowEx_eq]
      exact List.mem_cons_self _ _
    · exact ne_of_gt (Real.rpow_pos_of_pos (by norm_num) _)
  · rw [fRowEx_eq]
    have h1 : sumSqR (((3 : ℝ) / 10) ^ ((4 : ℝ) / 5) :: List.replicate 127 0)
        = ((3 : ℝ) / 10) ^ ((4 : ℝ) / 5) * ((3 : ℝ) / 10) ^ ((4 : ℝ) / 5) := by
      simp [sumSqR, sumSqR_replicate_zero]
    rw [h1, ← Real.rpow_add (by norm_num : (0 : ℝ) < 3 / 10)]
    have h2 : ((3 : ℝ) / 10) ^ ((4 : ℝ) / 5 + (4 : ℝ) / 5) < ((3 : ℝ) / 10) ^ (1 : ℝ) :=
      Real.rpow_lt_rpow_of_exponent_gt (by norm_num) (by norm_num) (by norm_num)
    rw [Real.rpow_one] at h2
    linarith

/-- C2 (witness): the successful concrete run satisfies the amended row
contract. -/
theorem C2_witness :
    ([fRowEx] : List (List ℝ)).length = ([10] : List ℤ).length ∧
    (∀ r ∈ ([fRowEx] : List (List ℝ)), r.length = 128) ∧
    ∃ Q, featuresRaw 30 30 gradEx thetaEx 7 [10] [10] 8 = Except.ok Q ∧
      [fRowEx] = Q.map (fun q => (normalizeRow q).map clipPow) ∧
      ∀ q ∈ Q, sumSqR (normalizeRow q) = 1 ∨
        (normalizeRow q = List.replicate 128 0 ∧
         (normalizeRow q).map clipPow = List.replicate 128 0) :=
  C2_descriptor_rows 30 30 gradEx thetaEx 7 [10] [10] 8 [fRowEx] get_features_ex

/-- C4: a point near the bottom border (x = 10 in a 12x12 image with
`feature_width = 8`, so its window upper bound 14 reaches past the image)
triggers the inward-shift clamp branch, which rebinds the bounds tuple to
`(array, int)` and makes the following `rows[1].astype(int)` raise an
AttributeError: the code crashes instead of producing a shifted window and
a descriptor row, whatever the gradient fields are. -/
theorem C4_boundary_crash (grad theta : ℕ → ℕ → ℚ) (hi : ℚ) :
    get_features 12 12 grad theta hi [10] [5] 8 =
      Except.error "AttributeError: int object has no attribute astype (rows clamp)" := by
  have hw : windowBounds 12 12 8 [10] [5] 10 5 =
      Except.error "AttributeError: int object has no attribute astype (rows clamp)" := by
    unfold windowBounds
    norm_num
  unfold get_features featuresRaw
  rw [show List.zip [(10 : ℤ)] [(5 : ℤ)] = [((10 : ℤ), (5 : ℤ))] from rfl]
  have hl : exceptMapList (fun (p : ℤ × ℤ) => rawRow 12 12 grad theta hi [10] [5] 8 p.1 p.2)
      [((10 : ℤ), (5 : ℤ))] =
      Except.error "AttributeError: int object has no attribute astype (rows clamp)" := by
    simp only [exceptMapList]
    have hr : rawRow 12 12 grad theta hi [10] [5] 8 10 5 =
        Except.error "AttributeError: int object has no attribute astype (rows clamp)" := by
      unfold rawRow
      rw [hw, except_bind_error]
    rw [hr]
  rw [hl, except_bind_error]
  rfl

/-- C10 (witness): the nonzero entry of the concrete returned matrix lies
in `[0, 0.3 ^ 0.8]`. -/
theorem C10_witness :
    0 ≤ ((3 : ℝ) / 10) ^ ((4 : ℝ) / 5) ∧
    ((3 : ℝ) / 10) ^ ((4 : ℝ) / 5) ≤ ((3 : ℝ) / 10) ^ ((4 : ℝ) / 5) :=
  C10_entry_range 30 30 gradEx thetaEx 7 [10] [10] 8 [fRowEx]
    (fun a b => by unfold gradEx; split <;> norm_num) get_features_ex
    fRowEx (List.mem_singleton.mpr rfl) (((3 : ℝ) / 10) ^ ((4 : ℝ) / 5))
    (by rw [fRowEx_eq]; exact List.mem_cons_self _ _)

/-- C3: with at least two second-image rows, a successful `match_features`
run accepts row `i` iff `d1 < 0.8 * d2` on the Euclidean distances, pairs
it with an index realising the minimum distance, records confidence
`1 - d1 / d2`, and every recorded confidence lies in `[0, 1]`. -/
theorem C3_nndr (f1 f2 : List (List ℚ)) (ms : List (ℕ × ℕ)) (cs : List ℝ)
    (h2 : 2 ≤ f2.length) (hok : match_features f1 f2 = Except.ok (ms, cs)) :
    cs.length = ms.length ∧
    (∀ i, i < f1.length →
      ((∃ j, (i, j) ∈ ms) ↔ d1R f2 (f1.getD i []) < (4 / 5) * d2R f2 (f1.getD i []))) ∧
    (∀ k, (hk : k < ms.length) → (hc : k < cs.length) →
      (dists f2 (f1.getD (ms[k].1) [])).getD (ms[k].2) 0
          = listMin (dists f2 (f1.getD (ms[k].1) [])) ∧
      cs[k] = 1 - d1R f2 (f1.getD (ms[k].1) []) / d2R f2 (f1.getD (ms[k].1) []) ∧
      0 ≤ cs[k] ∧ cs[k] ≤ 1) := by
  obtain ⟨hms, hcs, hne, -⟩ := match_features_ok f1 f2 ms cs hok
  subst hms; subst hcs
  have hf2ne : f2 ≠ [] := by
    intro h; rw [h] at h2; simp at h2
  have hdne : ∀ u, dists f2 u ≠ [] := by
    intro u
    simp [dists, hf2ne]
  have hdlen : ∀ u, (dists f2 u).length = f2.length := by
    intro u; simp [dists]
  refine ⟨by simp, ?_, ?_⟩
  · intro i hi
    have hmem : (∃ j, (i, j) ∈ (acceptedIdxs f1 f2).map
        (fun a => (a, idxMin (dists f2 (f1.getD a []))))) ↔ i ∈ acceptedIdxs f1 f2 := by
      constructor
      · rintro ⟨j, hj⟩
        rcases List.mem_map.mp hj with ⟨a, ha, heq⟩
        injection heq with ha1 ha2
        subst ha1
        exact ha
      · intro hi2
        exact ⟨_, List.mem_map_of_mem _ hi2⟩
    rw [hmem]
    have hfilter : i ∈ acceptedIdxs f1 f2 ↔ acceptRow f2 (f1.getD i []) = true := by
      simp [acceptedIdxs, List.mem_filter, List.mem_range, hi]
    rw [hfilter, acceptRow, decide_eq_true_eq]
    simp only [d1R, d2R]
    exact ratio_bridge _ _ (listMin_nonneg _ (hdne _) (dists_nonneg f2 _))
  · intro k hk hc
    have hk2 : k < (acceptedIdxs f1 f2).length := by simpa using hk
    have hiacc : (acceptedIdxs f1 f2)[k] ∈ acceptedIdxs f1 f2 := List.getElem_mem hk2
    have haccept : 25 * listMin (dists f2 (f1.getD ((acceptedIdxs f1 f2)[k]) [])) <
        16 * sndMin (dists f2 (f1.getD ((acceptedIdxs f1 f2)[k]) [])) := by
      have := (List.mem_filter.mp hiacc).2
      simpa [acceptRow] using this
    have hq1 : (0 : ℚ) ≤ listMin (dists f2 (f1.getD ((acceptedIdxs f1 f2)[k]) [])) :=
      listMin_nonneg _ (hdne _) (dists_nonneg f2 _)
    have hq2pos : (0 : ℚ) < sndMin (dists f2 (f1.getD ((acceptedIdxs f1 f2)[k]) [])) := by
      linarith
    have hsq2 : (0 : ℝ) < Real.sqrt (sndMin (dists f2 (f1.getD ((acceptedIdxs f1 f2)[k]) []))) :=
      Real.sqrt_pos.mpr (by exact_mod_cast hq2pos)
    have hblt := (ratio_bridge _ _ hq1).mp haccept
    have hratio_lt : Real.sqrt (listMin (dists f2 (f1.getD ((acceptedIdxs f1 f2)[k]) []))) /
        Real.sqrt (sndMin (dists f2 (f1.getD ((acceptedIdxs f1 f2)[k]) []))) < 4 / 5 := by
      rw [div_lt_iff₀ hsq2]
      linarith
    have hratio_nonneg : (0 : ℝ) ≤
        Real.sqrt (listMin (dists f2 (f1.getD ((acceptedIdxs f1 f2)[k]) []))) /
        Real.sqrt (sndMin (dists f2 (f1.getD ((acceptedIdxs f1 f2)[k]) []))) :=
      div_nonneg (Real.sqrt_nonneg _) (le_of_lt hsq2)
    refine ⟨?_, ?_, ?_, ?_⟩
    · simp only [List.getElem_map]
      exact idxMin_getD _ (hdne _)
    · simp only [List.getElem_map, nndrConf, d1R, d2R]
    · simp only [List.getElem_map, nndrConf]
      linarith
    · simp only [List.getElem_map, nndrConf]
      linarith

/-- C5: a successful `match_features` run returns at most one match per
first-image row, with distinct first components in `[0, N1)`, second
components in `[0, N2)`, and a parallel confidence list of the same
length. -/
theorem C5_match_invariants (f1 f2 : List (List ℚ)) (ms : List (ℕ × ℕ)) (cs : List ℝ)
    (hok : match_features f1 f2 = Except.ok (ms, cs)) :
    ms.length ≤ f1.length ∧ cs.length = ms.length ∧ (ms.map Prod.fst).Nodup ∧
    ∀ p ∈ ms, p.1 < f1.length ∧ p.2 < f2.length := by
  have hf2 := match_features_ok_two f1 f2 ms cs hok
  obtain ⟨hms, hcs, hne, -⟩ := match_features_ok f1 f2 ms cs hok
  subst hms; subst hcs
  have hsub : ∀ i ∈ acceptedIdxs f1 f2, i < f1.length := by
    intro i hi
    have := (List.mem_filter.mp hi).1
    simpa using this
  refine ⟨?_, by simp, ?_, ?_⟩
  · have h1 : ((acceptedIdxs f1 f2).map
        (fun i => (i, idxMin (dists f2 (f1.getD i []))))).length
        = (acceptedIdxs f1 f2).length := by simp
    rw [h1]
    have := List.length_filter_le (fun i => acceptRow f2 (f1.getD i []))
      (List.range f1.length)
    simpa [acceptedIdxs] using this
  · have h1 : ((acceptedIdxs f1 f2).map
        (fun i => (i, idxMin (dists f2 (f1.getD i []))))).map Prod.fst
        = acceptedIdxs f1 f2 := by
      rw [List.map_map]
      rw [show (Prod.fst ∘ fun i => (i, idxMin (dists f2 (f1.getD i [])))) = id from rfl]
      exact List.map_id _
    rw [h1]
    exact (List.nodup_range _).filter _
  · intro p hp
    rcases List.mem_map.mp hp with ⟨i, hi, rfl⟩
    refine ⟨hsub i hi, ?_⟩
    have hf2ne : f2 ≠ [] := by
      intro h; rw [h] at hf2; simp at hf2
    have hdne : dists f2 (f1.getD i []) ≠ [] := by simp [dists, hf2ne]
    have := idxMin_lt_length _ hdne
    simpa [dists] using this

/-- C6: when no first-image row passes the ratio test, `match_features`
errors out (the unconditional `np.min` over the empty valid-confidence
array) instead of returning empty arrays. -/
theorem C6_no_match_error (f1 f2 : List (List ℚ))
    (h : ∀ i, i < f1.length → acceptRow f2 (f1.getD i []) = false) :
    (match_features f1 f2).isOk = false := by
  have hidx : acceptedIdxs f1 f2 = [] := by
    apply List.filter_eq_nil_iff.mpr
    intro i hi
    rw [h i (List.mem_range.mp hi)]
    simp
  unfold match_features
  by_cases h1 : f1.length ≠ 0 ∧ f2.length < 2
  · rw [if_pos h1]; rfl
  · rw [if_neg h1, hidx]
    rfl

/-- C8: when the second descriptor set has exactly one row,
`match_features` never returns normally: with a nonempty first set the
loop body indexes the nonexistent second-nearest distance, and with an
empty first set the empty-confidence reduction fails. -/
theorem C8_single_row_error (f1 f2 : List (List ℚ)) (h : f2.length = 1) :
    (match_features f1 f2).isOk = false := by
  unfold match_features
  by_cases h1 : f1.length ≠ 0
  · rw [if_pos ⟨h1, by omega⟩]; rfl
  · push_neg at h1
    rw [if_neg (fun hc => hc.1 (by omega))]
    have hidx : acceptedIdxs f1 f2 = [] := by
      simp [acceptedIdxs, h1]
    rw [hidx]
    rfl

namespace Student

/-- First-image descriptor set of the concrete matching example. -/
def f1Ex : List (List ℚ) := [[0, 0]]

/-- Second-image descriptor set of the concrete matching example. -/
def f2Ex : List (List ℚ) := [[0, 0], [3, 4]]

/-- Matches produced on the concrete example. -/
def msEx : List (ℕ × ℕ) := [(0, 0)]

/-- Confidences produced on the concrete example. -/
noncomputable def csEx : List ℝ := [nndrConf 0 25]

theorem dists_ex : dists f2Ex [0, 0] = [0, 25] := by
  norm_num [dists, sqdist, f2Ex]

theorem listMin_ex : listMin [0, 25] = 0 := by
  norm_num [listMin, min_def]

theorem idxMin_ex : idxMin [0, 25] = 0 := by
  unfold idxMin
  simp only [listMin_ex]
  rw [List.findIdx_cons]
  have hd : decide ((0 : ℚ) ≤ 0) = true := by simp
  rw [hd]
  rfl

theorem sndMin_ex : sndMin [0, 25] = 25 := by
  unfold sndMin
  rw [idxMin_ex]
  norm_num [listMin]

theorem acceptedIdxs_ex : acceptedIdxs f1Ex f2Ex = [0] := by
  unfold acceptedIdxs
  rw [show f1Ex.length = 1 from rfl, show List.range 1 = [0] from rfl]
  simp only [List.filter_cons, List.filter_nil]
  rw [show f1Ex.getD 0 [] = ([0, 0] : List ℚ) from rfl]
  unfold acceptRow
  rw [dists_ex, listMin_ex, sndMin_ex]
  norm_num

/-- Evaluation of `match_features` on the concrete example: row 0 is at
distance 0 from its nearest and 5 from its second-nearest candidate, so it
is accepted. -/
theorem match_features_ex : match_features f1Ex f2Ex = Except.ok (msEx, csEx) := by
  unfold match_features
  rw [if_neg (by norm_num [f1Ex, f2Ex])]
  rw [acceptedIdxs_ex]
  rw [if_neg (by simp)]
  simp only [List.map_cons, List.map_nil]
  rw [show f1Ex.getD 0 [] = ([0, 0] : List ℚ) from rfl, dists_ex, listMin_ex, idxMin_ex,
    sndMin_ex]
  rfl

end Student

/-- C3 (witness): the concrete example run has two candidate rows and
satisfies the ratio-test characterisation. -/
theorem C3_witness :
    2 ≤ f2Ex.length ∧
    (csEx.length = msEx.length ∧
     (∀ i, i < f1Ex.length →
       ((∃ j, (i, j) ∈ msEx) ↔ d1R f2Ex (f1Ex.getD i []) < (4 / 5) * d2R f2Ex (f1Ex.getD i []))) ∧
     (∀ k, (hk : k < msEx.length) → (hc : k < csEx.length) →
       (dists f2Ex (f1Ex.getD (msEx[k].1) [])).getD (msEx[k].2) 0
           = listMin (dists f2Ex (f1Ex.getD (msEx[k].1) [])) ∧
       csEx[k] = 1 - d1R f2Ex (f1Ex.getD (msEx[k].1) []) / d2R f2Ex (f1Ex.getD (msEx[k].1) []) ∧
       0 ≤ csEx[k] ∧ csEx[k] ≤ 1)) :=
  ⟨by norm_num [f2Ex], C3_nndr f1Ex f2Ex msEx csEx (by norm_num [f2Ex]) match_features_ex⟩

/-- C5 (witness): the concrete example run satisfies the match-list
invariants. -/
theorem C5_witness :
    msEx.length ≤ f1Ex.length ∧ csEx.length = msEx.length ∧ (msEx.map Prod.fst).Nodup ∧
    ∀ p ∈ msEx, p.1 < f1Ex.length ∧ p.2 < f2Ex.length :=
  C5_match_invariants f1Ex f2Ex msEx csEx match_features_ex

/-- C6 (witness): with one first-image row equidistant from both candidate
rows, the ratio test rejects everything and the call errors out. -/
theorem C6_witness : (match_features [[0, 0]] [[3, 4], [3, 4]]).isOk = false := by
  apply C6_no_match_error
  intro i hi
  have hi0 : i = 0 := Nat.lt_one_iff.mp (by simpa using hi)
  subst hi0
  have hd : dists [[3, 4], [3, 4]] (([[0, 0]] : List (List ℚ)).getD 0 []) = [25, 25] := by
    norm_num [dists, sqdist]
  have hm : listMin [25, 25] = 25 := by norm_num [listMin, min_def]
  have hx : idxMin [25, 25] = 0 := by
    unfold idxMin
    simp only [hm]
    rw [List.findIdx_cons]
    have hdec : decide ((25 : ℚ) ≤ 25) = true := by simp
    rw [hdec]
    rfl
  have hs : sndMin [25, 25] = 25 := by
    unfold sndMin
    rw [hx]
    norm_num [listMin]
  unfold acceptRow
  rw [hd, hm, hs, decide_eq_false_iff_not]
  norm_num

/-- C8 (witness): a single-row second descriptor set makes the call fail. -/
theorem C8_witness : (match_features [[0]] [[1]]).isOk = false :=
  C8_single_row_error [[0]] [[1]] rfl
